import Mathlib

set_option maxRecDepth 100000

/-!
Verification of the result-extraction engine of the SERP client
(src/serp_client.py, method get_multiple_results) together with the
multi-query orchestration of src/main.py / src/enrichment_agent.py.

Python strings are embedded as `List Char`; the regular-expression
scans of the source are embedded as explicit character-list scanners
implementing the match/backtracking semantics of the concrete patterns
used by the code.
-/

/-! ### Basic text utilities -/

/-- Python's substring test `pat in l` (contiguous occurrence). -/
def containsLit (pat : List Char) : List Char → Bool
  | [] => pat.isPrefixOf []
  | c :: t => pat.isPrefixOf (c :: t) || containsLit pat t

/-- Whitespace set used by Python `str.split()` (ASCII part). -/
def isPySpace (c : Char) : Bool :=
  c = ' ' || c = '\t' || c = '\n' || c = '\r' || c = '\x0b' || c = '\x0c'

/-- Text after the first occurrence of character `ch`
(consumes the regex fragment `[^c]*c`); `none` when `ch` does not occur. -/
def afterChar (ch : Char) : List Char → Option (List Char)
  | [] => none
  | c :: t => if c = ch then some t else afterChar ch t

/-- Split at the first occurrence of the literal `pat`:
returns the text before it and the text after it
(the lazy regex fragment `(.*?)pat`). -/
def splitAtLit (pat : List Char) : List Char → Option (List Char × List Char)
  | [] => none
  | c :: t =>
    if pat.isPrefixOf (c :: t) then some ([], (c :: t).drop pat.length)
    else
      match splitAtLit pat t with
      | some (pre, post) => some (c :: pre, post)
      | none => none

/-- For each occurrence of the literal `pat` that starts strictly before the
first `>` of `l`, the text immediately after that occurrence, in
left-to-right order.  This is the candidate list produced by the greedy
regex fragment `[^>]*pat` (the pattern literals used never contain `>`). -/
def attrCandidatesAux (pat : List Char) : List Char → List (List Char)
  | [] => []
  | c :: t =>
    if c = '>' then []
    else
      (if pat.isPrefixOf (c :: t) then [(c :: t).drop pat.length] else []) ++
        attrCandidatesAux pat t

/-! ### html.unescape (entity decoding), modelled

The source calls Python `html.unescape`.  We model the `&#NNN;` numeric
form and a representative subset of the named-entity table, which covers
every entity the claims exercise; unrecognized `&` sequences are left
unchanged, as in Python. -/

/-- Modelled subset of the HTML named-entity table: entity text after the
`&`, and its replacement. -/
def entityTable : List (List Char × List Char) :=
  [("amp;".data, "&".data), ("lt;".data, "<".data), ("gt;".data, ">".data),
   ("quot;".data, "\"".data), ("apos;".data, "\x27".data)]

def lookupEntity : List (List Char × List Char) → List Char → Option (List Char × List Char)
  | [], _ => none
  | (name, repl) :: tbl, rest =>
    if name.isPrefixOf rest then some (repl, rest.drop name.length)
    else lookupEntity tbl rest

def digitsVal (ds : List Char) : Nat :=
  ds.foldl (fun a c => a * 10 + (c.toNat - 48)) 0

/-- Parse one entity following a `&`: numeric `#NNN;` or a named entity.
Returns the replacement text and the input after the entity. -/
def parseEntity (rest : List Char) : Option (List Char × List Char) :=
  match rest with
  | '#' :: ds =>
    let digits := ds.takeWhile Char.isDigit
    if digits ≠ [] ∧ (ds.drop digits.length).head? = some ';' then
      some ([Char.ofNat (digitsVal digits)], (ds.drop digits.length).drop 1)
    else lookupEntity entityTable rest
  | _ => lookupEntity entityTable rest

def unescapeAux : Nat → List Char → List Char
  | 0, l => l
  | _ + 1, [] => []
  | fuel + 1, c :: rest =>
    if c = '&' then
      match parseEntity rest with
      | some (repl, after) => repl ++ unescapeAux fuel after
      | none => '&' :: unescapeAux fuel rest
    else c :: unescapeAux fuel rest

/-- Embeds Python `html.unescape` (the fuel, one unit per input character,
always suffices because decoding an entity consumes at least two characters). -/
def unescape (l : List Char) : List Char := unescapeAux l.length l

/-! ### Tag stripping: re.sub of the pattern matching `<`, one or more
non-`>` characters, `>`, replaced by the empty string -/

def stripTagsAux : Nat → List Char → List Char
  | 0, l => l
  | _ + 1, [] => []
  | fuel + 1, c :: rest =>
    if c = '<' then
      if rest.head? = some '>' then '<' :: stripTagsAux fuel rest
      else
        match afterChar '>' rest with
        | some after => stripTagsAux fuel after
        | none => '<' :: stripTagsAux fuel rest
    else c :: stripTagsAux fuel rest

def stripTags (l : List Char) : List Char := stripTagsAux l.length l

/-! ### Python str.split() / ' '.join / str.strip -/

/-- Python `str.split()`: split on runs of whitespace, discarding empties.
`acc` holds the current word, reversed. -/
def pySplitAux : List Char → List Char → List (List Char)
  | [], acc => if acc = [] then [] else [acc.reverse]
  | c :: rest, acc =>
    if isPySpace c then
      if acc = [] then pySplitAux rest [] else acc.reverse :: pySplitAux rest []
    else pySplitAux rest (c :: acc)

def pySplit (l : List Char) : List (List Char) := pySplitAux l []

/-- Python `' '.join(words)`. -/
def joinWords : List (List Char) → List Char
  | [] => []
  | [w] => w
  | w :: ws => w ++ ' ' :: joinWords ws

/-- Python `str.strip()`. -/
def pyStrip (l : List Char) : List Char :=
  ((l.dropWhile isPySpace).reverse.dropWhile isPySpace).reverse

/-- `clean_text` of the source: remove tags, decode entities, collapse
whitespace, strip. -/
def clean_text (t : List Char) : List Char :=
  pyStrip (joinWords (pySplit (unescape (stripTags t))))

/-! ### Single-match semantics of the extraction patterns

Each matcher tries to match its regex at the start of the input.  On
success it returns the capture and the remaining input after the whole
match.  Backtracking of the greedy fragment before the attribute literal
is realized by trying the after-attribute candidates from the last
occurrence to the first. -/

/-- Complete a tag match after the opening quote of the attribute value:
`[^"]*"` (with an optional class-token `tok` required inside the quoted
run, for the fragment `[^"]*tok[^"]*"`), then `[^>]*>`, then the lazy
capture up to the literal `closeLit`. -/
def tagComplete (token : Option (List Char)) (closeLit : List Char)
    (afterAttr : List Char) : Option (List Char × List Char) :=
  let tokOk :=
    match token with
    | none => true
    | some tk => containsLit tk (afterAttr.takeWhile (fun c => c ≠ '"'))
  if tokOk then
    match afterChar '"' afterAttr with
    | none => none
    | some a2 =>
      match afterChar '>' a2 with
      | none => none
      | some a3 => splitAtLit closeLit a3
  else none

def tryCands (token : Option (List Char)) (closeLit : List Char) :
    List (List Char) → Option (List Char × List Char)
  | [] => none
  | a :: rest =>
    match tagComplete token closeLit a with
    | some r => some r
    | none => tryCands token closeLit rest

/-- Match, at the start of `l`, a pattern of the shape
`openLit [^>]* attrLit [^"]* (tok [^"]*)? " [^>]* > (.*?) closeLit`
(the shape of the title pattern and of snippet patterns 1-3). -/
def tagMatch (openLit attrLit : List Char) (token : Option (List Char))
    (closeLit : List Char) (l : List Char) : Option (List Char × List Char) :=
  if openLit.isPrefixOf l then
    tryCands token closeLit (attrCandidatesAux attrLit (l.drop openLit.length)).reverse
  else none

/-- The capture of the fourth snippet pattern after the `>`:
`([^<]{100,500})</div>` under greedy semantics succeeds exactly when the
maximal non-`<` run has length 100..500 and is followed by the literal
`</div>`. -/
def styleComplete (afterAttr : List Char) : Option (List Char × List Char) :=
  match afterChar '"' afterAttr with
  | none => none
  | some a2 =>
    match afterChar '>' a2 with
    | none => none
    | some a3 =>
      let cap := a3.takeWhile (fun c => c ≠ '<')
      if 100 ≤ cap.length ∧ cap.length ≤ 500 ∧
          "</div>".data.isPrefixOf (a3.drop cap.length) then
        some (cap, (a3.drop cap.length).drop 6)
      else none

def tryCandsStyle : List (List Char) → Option (List Char × List Char)
  | [] => none
  | a :: rest =>
    match styleComplete a with
    | some r => some r
    | none => tryCandsStyle rest

/-- Matcher for snippet pattern 4 of the source. -/
def styleDivMatch (l : List Char) : Option (List Char × List Char) :=
  if "<div".data.isPrefixOf l then
    tryCandsStyle (attrCandidatesAux "style=\"".data (l.drop 4)).reverse
  else none

/-- Group 2 of the URL pattern: `https?://[^"&]+` (greedy), returning the
captured URL and the rest of the input after it. -/
def urlTail (s : List Char) : Option (List Char × List Char) :=
  let scheme :=
    if "https://".data.isPrefixOf s then some "https://".data
    else if "http://".data.isPrefixOf s then some "http://".data
    else none
  match scheme with
  | none => none
  | some sch =>
    let t := (s.drop sch.length).takeWhile (fun c => !(c = '"' || c = '&'))
    if t = [] then none else some (sch ++ t, (s.drop sch.length).drop t.length)

/-- The two capture groups of the URL pattern after the `href="` literal:
the optional redirect-wrapper alternation, tried left to right then
absent, followed by group 2.  A non-participating group 1 is the empty
string, as in Python findall. -/
def urlGroups (afterHref : List Char) : Option ((List Char × List Char) × List Char) :=
  match
    (if "/url?q=".data.isPrefixOf afterHref then
      match urlTail (afterHref.drop 7) with
      | some (g2, rest) => some (("/url?q=".data, g2), rest)
      | none => none
    else none) with
  | some r => some r
  | none =>
    match
      (if "/search?q=".data.isPrefixOf afterHref then
        match urlTail (afterHref.drop 10) with
        | some (g2, rest) => some (("/search?q=".data, g2), rest)
        | none => none
      else none) with
    | some r => some r
    | none =>
      match urlTail afterHref with
      | some (g2, rest) => some (([], g2), rest)
      | none => none

def tryCandsUrl : List (List Char) → Option ((List Char × List Char) × List Char)
  | [] => none
  | a :: rest =>
    match urlGroups a with
    | some r => some r
    | none => tryCandsUrl rest

/-- Matcher for the URL pattern of the source. -/
def urlMatch (l : List Char) : Option ((List Char × List Char) × List Char) :=
  if "<a".data.isPrefixOf l then
    tryCandsUrl (attrCandidatesAux "href=\"".data (l.drop 2)).reverse
  else none

/-- Matcher for the fallback text-block pattern: `>`, a captured non-`<`
run of length 80..400 (greedy), then `<` (consumed by the match). -/
def blockMatch : List Char → Option (List Char × List Char)
  | '>' :: rest =>
    let cap := rest.takeWhile (fun c => c ≠ '<')
    if 80 ≤ cap.length ∧ cap.length ≤ 400 ∧ rest.drop cap.length ≠ [] then
      some (cap, (rest.drop cap.length).drop 1)
    else none
  | _ => none

/-! ### findall: repeated non-overlapping left-to-right matching -/

def findallAux (m : List Char → Option (α × List Char)) : Nat → List Char → List α
  | 0, _ => []
  | fuel + 1, l =>
    match m l with
    | some (cap, rest) => cap :: findallAux m fuel rest
    | none =>
      match l with
      | [] => []
      | _ :: t => findallAux m fuel t

/-- `re.findall`: scan left to right, at each position try the matcher; on
success emit the capture and continue after the match.  One unit of fuel
per input character suffices because every successful match consumes at
least one character. -/
def findall (m : List Char → Option (α × List Char)) (l : List Char) : List α :=
  findallAux m l.length l

/-- Pattern 1 of the source: the title pattern over h3 elements. -/
def titlesOf (html : List Char) : List (List Char) :=
  findall (tagMatch "<h3".data "class=\"".data none "</h3>".data) html

/-- Pattern 2 of the source: the URL pattern over anchor elements;
findall returns the pair of capture groups. -/
def url_matchesOf (html : List Char) : List (List Char × List Char) :=
  findall urlMatch html

/-- The four snippet patterns of the source, in their fixed order. -/
def snippetFindallA (html : List Char) : List (List Char) :=
  findall (tagMatch "<div".data "data-sncf=\"".data none "</div>".data) html

def snippetFindallB (html : List Char) : List (List Char) :=
  findall (tagMatch "<div".data "class=\"".data (some "VwiC3b".data) "</div>".data) html

def snippetFindallC (html : List Char) : List (List Char) :=
  findall (tagMatch "<span".data "class=\"".data (some "st".data) "</span>".data) html

def snippetFindallD (html : List Char) : List (List Char) :=
  findall styleDivMatch html

/-- The fallback block pattern of the source. -/
def text_blocksOf (html : List Char) : List (List Char) :=
  findall blockMatch html

/-! ### The extraction pipeline of get_multiple_results -/

structure SearchResult where
  title : List Char
  url : List Char
  description : List Char
deriving DecidableEq, Repr

def urlPlaceholder : List Char := "URL not available".data

def descPlaceholder : List Char := "Description not available".data

/-- The blocklist test of the source: any of the three raw substrings. -/
def blockedUrl (u : List Char) : Bool :=
  containsLit "google.com".data u || containsLit "gstatic.com".data u ||
    containsLit "youtube.com/redirect".data u

/-- The URL-processing loop of the source: for each findall tuple take the
second group (the source's conditional chooses group 2 in both branches),
drop blocklisted URLs, entity-decode the kept ones. -/
def cleanUrlsLoop : List (List Char × List Char) → List (List Char)
  | [] => []
  | (g1, g2) :: rest =>
    let url := if g1 ≠ [] then g2 else g2
    if blockedUrl url then cleanUrlsLoop rest
    else unescape url :: cleanUrlsLoop rest

/-- The stoplist test of the source on the lowercased cleaned snippet. -/
def stoplisted (cleaned : List Char) : Bool :=
  let lower := cleaned.map Char.toLower
  containsLit "javascript".data lower || containsLit "cookie".data lower ||
    containsLit "sign in".data lower || containsLit "log in".data lower

/-- The snippet-processing loop of the source: clean each pooled
candidate, keep it when its length is strictly between 50 and 500 and it
passes the stoplist. -/
def cleanSnippetsLoop : List (List Char) → List (List Char)
  | [] => []
  | s :: rest =>
    let cleaned := clean_text s
    if 50 < cleaned.length ∧ cleaned.length < 500 then
      if stoplisted cleaned then cleanSnippetsLoop rest
      else cleaned :: cleanSnippetsLoop rest
    else cleanSnippetsLoop rest

/-- The snippet-pattern cascade of the source: extend the pool with each
pattern's findall in order, breaking once the pool holds at least
`count * 2` items (the break test runs after each extension). -/
def poolLoop (html : List Char) (count : Nat) (acc : List (List Char)) :
    List (List Char → List (List Char)) → List (List Char)
  | [] => acc
  | p :: rest =>
    let acc2 := acc ++ p html
    if count * 2 ≤ acc2.length then acc2 else poolLoop html count acc2 rest

def snippetPatterns : List (List Char → List (List Char)) :=
  [snippetFindallA, snippetFindallB, snippetFindallC, snippetFindallD]

def snippetsOf (html : List Char) (count : Nat) : List (List Char) :=
  poolLoop html count [] snippetPatterns

def clean_titlesOf (html : List Char) : List (List Char) :=
  ((titlesOf html).map clean_text).filter (fun t => t ≠ [])

def clean_urlsOf (html : List Char) : List (List Char) :=
  cleanUrlsLoop (url_matchesOf html)

def clean_snippetsOf (html : List Char) (count : Nat) : List (List Char) :=
  cleanSnippetsLoop (snippetsOf html count)

/-- Python truthiness of an optional string together with the
`x if x else default` idiom of the assembly step. -/
def orDefault (x : Option (List Char)) (dflt : List Char) : List Char :=
  match x with
  | some s => if s = [] then dflt else s
  | none => dflt

/-- The primary positional-correlation pass: for each index below
`min count titles.length`, emit a record when the title at that index is
truthy and longer than 5, substituting placeholders for a missing url or
snippet. -/
def primaryPass (titles urls snippets : List (List Char)) (count : Nat) :
    List SearchResult :=
  (List.range (min count titles.length)).filterMap (fun i =>
    match titles.get? i with
    | none => none
    | some title =>
      if title ≠ [] ∧ 5 < title.length then
        some { title := title,
               url := orDefault (urls.get? i) urlPlaceholder,
               description := orDefault (snippets.get? i) descPlaceholder }
      else none)

def primaryOf (html : List Char) (count : Nat) : List SearchResult :=
  primaryPass (clean_titlesOf html) (clean_urlsOf html)
    (clean_snippetsOf html count) count

/-- A synthesized fallback record for a cleaned text block. -/
def fallbackRecord (cleaned : List Char) : SearchResult :=
  { title := cleaned.take 100 ++ "...".data,
    url := urlPlaceholder,
    description := cleaned }

/-- The fallback loop of the source: walk the first `count` text blocks,
stopping once `count` results are held, appending a record for each block
whose cleaned text is truthy and longer than 50. -/
def fallbackLoop (count : Nat) : List (List Char) → List SearchResult → List SearchResult
  | [], results => results
  | b :: rest, results =>
    if count ≤ results.length then results
    else
      let cleaned := clean_text b
      if cleaned ≠ [] ∧ 50 < cleaned.length then
        fallbackLoop count rest (results ++ [fallbackRecord cleaned])
      else fallbackLoop count rest results

/-- The extraction engine: src/serp_client.py, get_multiple_results,
as a pure function of the page body and the requested count. -/
def get_multiple_results (html : List Char) (count : Nat) : List SearchResult :=
  if html = [] then []
  else
    let primary := primaryOf html count
    let results :=
      if primary.length < count then
        fallbackLoop count ((text_blocksOf html).take count) primary
      else primary
    results.take count

/-! ### Multi-query orchestration (claim C9)

src/enrichment_agent.py research_company issues four dispatcher queries
in sequence with no exception handling of its own; a transport failure
propagates.  src/main.py research_competitors wraps each domain's
research in try/except and continues with the next domain.  The
dispatcher is a parameter; each model also returns the trace of query
keywords actually issued, in order. -/

structure Intel where
  domain : String
  positioning : List SearchResult
  customers : List SearchResult
  strategic_moves : List SearchResult
  product_strategy : List SearchResult
deriving DecidableEq

def kwPositioning (domain : String) : String := domain ++ " vs competitors"

def kwCustomers (domain : String) : String := domain ++ " customers case study"

def kwStrategic (domain : String) : String :=
  domain ++ " funding OR acquisition OR partnership"

def kwProduct (domain : String) : String :=
  domain ++ " product launch OR new feature"

/-- research_company: the four sequential queries; a dispatcher failure
aborts the remaining queries of this domain and propagates. -/
def research_company (d : String → Except String (List SearchResult))
    (domain : String) : List String × Except String Intel :=
  match d (kwPositioning domain) with
  | .error e => ([kwPositioning domain], .error e)
  | .ok positioning =>
    match d (kwCustomers domain) with
    | .error e => ([kwPositioning domain, kwCustomers domain], .error e)
    | .ok customers =>
      match d (kwStrategic domain) with
      | .error e =>
        ([kwPositioning domain, kwCustomers domain, kwStrategic domain], .error e)
      | .ok strategic =>
        match d (kwProduct domain) with
        | .error e =>
          ([kwPositioning domain, kwCustomers domain, kwStrategic domain,
            kwProduct domain], .error e)
        | .ok product =>
          ([kwPositioning domain, kwCustomers domain, kwStrategic domain,
            kwProduct domain],
           .ok { domain := domain, positioning := positioning,
                 customers := customers, strategic_moves := strategic,
                 product_strategy := product })

/-- research_competitors: per-domain try/except; a failing domain is
skipped and the loop continues with the remaining domains. -/
def research_competitors (d : String → Except String (List SearchResult)) :
    List String → List String × List Intel
  | [] => ([], [])
  | dom :: rest =>
    let this := research_company d dom
    let next := research_competitors d rest
    match this.2 with
    | .ok intel => (this.1 ++ next.1, intel :: next.2)
    | .error _ => (this.1 ++ next.1, next.2)

/-! ### The engine variant without the early pool stop (claim C8)

Modelled from the spec: the refinement claim compares the engine against
a variant that always runs all four snippet patterns to completion,
accumulating every match into the pool with no early break. -/

def snippetsAllOf (html : List Char) : List (List Char) :=
  snippetPatterns.foldl (fun acc p => acc ++ p html) []

def primaryAllOf (html : List Char) (count : Nat) : List SearchResult :=
  primaryPass (clean_titlesOf html) (clean_urlsOf html)
    (cleanSnippetsLoop (snippetsAllOf html)) count

def get_multiple_resultsAll (html : List Char) (count : Nat) : List SearchResult :=
  if html = [] then []
  else
    let primary := primaryAllOf html count
    let results :=
      if primary.length < count then
        fallbackLoop count ((text_blocksOf html).take count) primary
      else primary
    results.take count

/-! ### Concrete inputs used by witnesses and counterexamples -/

/-- The shape every URL captured by group 2 of the URL pattern has. -/
def urlShape (u : List Char) : Prop :=
  ("http://".data <+: u ∨ "https://".data <+: u) ∧ '"' ∉ u ∧ '&' ∉ u

/-- The records the fallback loop appends, as a function of the number of
results already held. -/
def fallbackNew (count : Nat) : List (List Char) → Nat → List SearchResult
  | [], _ => []
  | b :: rest, curLen =>
    if count ≤ curLen then []
    else
      let cleaned := clean_text b
      if cleaned ≠ [] ∧ 50 < cleaned.length then
        fallbackRecord cleaned :: fallbackNew count rest (curLen + 1)
      else fallbackNew count rest curLen

def pageC1 : List Char :=
  "<h3 class=\"x\">Result One</h3><a href=\"https://example.net/a\">".data

def pageC5 : List Char := "<h3 class=\"t\">Alpha Beta</h3>".data

def pageC6 : List Char :=
  "<h3 class=\"x\">Title123</h3><div class=\"VwiC3b\">".data ++
    List.replicate 60 'd' ++ "</div>".data

/-- A page with no heading-style matches and two delimiter-bounded blocks
of length 80 that normalize to empty text. -/
def pageC7bad : List Char :=
  ('>' :: List.replicate 80 ' ') ++ '<' :: '>' :: (List.replicate 80 ' ' ++ ['<'])

/-- The page used to exercise the amended fallback-activation property. -/
def pageC7good : List Char :=
  ('>' :: List.replicate 80 'a') ++ '<' :: '>' :: (List.replicate 80 'b' ++ ['<'])

/-- A page on which the early pool stop is observable: the first snippet
pattern yields two junk candidates (filling the pool to 2 x count for
count 1), while the second pattern holds the only candidate that
survives the filter. -/
def pageC8 : List Char :=
  "<h3 class=\"r\">My Title Here</h3><div data-sncf=\"1\">x</div><div data-sncf=\"2\">y</div><div class=\"VwiC3b\">".data
    ++ List.replicate 60 'd' ++ "</div>".data

def pageC10 : List Char :=
  "<h3 class=\"y\">Result Two</h3><a href=\"http://sample.org/x\">".data

/-- A dispatcher failing exactly on the first query of the first domain. -/
def failingDispatcher : String → Except String (List SearchResult) :=
  fun k => if k = "a.com vs competitors" then .error "boom" else .ok []

/-! ### Lemmas about the text layer -/

theorem containsLit_iff (p l : List Char) : containsLit p l = true ↔ p <:+: l := by
  induction l with
  | nil =>
    simp only [containsLit, List.isPrefixOf_iff_prefix, List.infix_nil]
    exact ⟨fun h => List.prefix_nil.mp h, fun h => h ▸ List.nil_prefix⟩
  | cons c t ih =>
    simp only [containsLit, Bool.or_eq_true, List.isPrefixOf_iff_prefix, ih,
      List.infix_cons_iff]

theorem unescapeAux_no_amp : ∀ (fuel : Nat) (l : List Char), '&' ∉ l →
    unescapeAux fuel l = l := by
  intro fuel
  induction fuel with
  | zero => intro l _; rfl
  | succ fuel ih =>
    intro l hl
    match l with
    | [] => rfl
    | c :: rest =>
      have hc : ¬ c = '&' := fun h => hl (h ▸ List.mem_cons_self c rest)
      have hrest : '&' ∉ rest := fun h => hl (List.mem_cons_of_mem c h)
      simp only [unescapeAux, if_neg hc, ih rest hrest]

theorem unescape_no_amp (l : List Char) (h : '&' ∉ l) : unescape l = l :=
  unescapeAux_no_amp l.length l h

theorem lookupEntity_le : ∀ (tbl : List (List Char × List Char)) (rest repl after : List Char),
    (∀ pair ∈ tbl, (pair.2 : List Char).length ≤ pair.1.length) →
    lookupEntity tbl rest = some (repl, after) →
    repl.length + after.length ≤ rest.length := by
  intro tbl
  induction tbl with
  | nil => intro rest repl after _ h; simp [lookupEntity] at h
  | cons pair tbl ih =>
    intro rest repl after htbl h
    obtain ⟨name, rpl⟩ := pair
    simp only [lookupEntity] at h
    split at h
    · rename_i hpre
      obtain ⟨h1, h2⟩ := Prod.mk.injEq .. ▸ Option.some.injEq .. ▸ h
      have hlen : name.length ≤ rest.length :=
        (List.isPrefixOf_iff_prefix.mp hpre).length_le
      have hrepl : rpl.length ≤ name.length := htbl (name, rpl) (List.mem_cons_self _ _)
      subst h1 h2
      have : (rest.drop name.length).length = rest.length - name.length :=
        List.length_drop _ _
      omega
    · exact ih rest repl after (fun q hq => htbl q (List.mem_cons_of_mem _ hq)) h

theorem entityTable_le : ∀ pair ∈ entityTable, (pair.2 : List Char).length ≤ pair.1.length := by
  decide

theorem parseEntity_le (rest repl after : List Char)
    (h : parseEntity rest = some (repl, after)) :
    repl.length + after.length ≤ rest.length := by
  unfold parseEntity at h
  split at h
  · rename_i ds
    dsimp only at h
    split at h
    · rename_i hcond
      obtain ⟨h1, h2⟩ := Prod.mk.injEq .. ▸ Option.some.injEq .. ▸ h
      subst h1 h2
      have h3 : ((ds.drop (ds.takeWhile Char.isDigit).length).drop 1).length ≤ ds.length := by
        rw [List.length_drop, List.length_drop]; omega
      simp only [List.length_cons, List.length_nil]
      omega
    · exact lookupEntity_le _ _ _ _ entityTable_le h
  · exact lookupEntity_le _ _ _ _ entityTable_le h

theorem unescapeAux_length_le : ∀ (fuel : Nat) (l : List Char),
    (unescapeAux fuel l).length ≤ l.length := by
  intro fuel
  induction fuel with
  | zero => intro l; exact Nat.le_refl _
  | succ fuel ih =>
    intro l
    match l with
    | [] => exact Nat.le_refl _
    | c :: rest =>
      simp only [unescapeAux]
      split
      · cases hp : parseEntity rest with
        | some p =>
          obtain ⟨repl, after⟩ := p
          have h1 := parseEntity_le rest repl after hp
          have h2 := ih after
          simp only [List.length_append, List.length_cons]
          omega
        | none => simp only [List.length_cons]; exact Nat.succ_le_succ (ih rest)
      · simp only [List.length_cons]; exact Nat.succ_le_succ (ih rest)

theorem unescape_length_le (l : List Char) : (unescape l).length ≤ l.length :=
  unescapeAux_length_le l.length l

theorem afterChar_length_lt : ∀ (ch : Char) (l a : List Char),
    afterChar ch l = some a → a.length < l.length := by
  intro ch l
  induction l with
  | nil => intro a h; simp [afterChar] at h
  | cons c t ih =>
    intro a h
    simp only [afterChar] at h
    split at h
    · cases h; simp
    · exact Nat.lt_trans (ih a h) (Nat.lt_succ_self _)

theorem stripTagsAux_length_le : ∀ (fuel : Nat) (l : List Char),
    (stripTagsAux fuel l).length ≤ l.length := by
  intro fuel
  induction fuel with
  | zero => intro l; exact Nat.le_refl _
  | succ fuel ih =>
    intro l
    match l with
    | [] => exact Nat.le_refl _
    | c :: rest =>
      simp only [stripTagsAux]
      split
      · split
        · simp only [List.length_cons]; exact Nat.succ_le_succ (ih rest)
        · cases ha : afterChar '>' rest with
          | some after =>
            simp only [ha]
            have h1 := afterChar_length_lt '>' rest after ha
            have h2 := ih after
            simp only [List.length_cons]
            omega
          | none =>
            simp only [ha, List.length_cons]
            exact Nat.succ_le_succ (ih rest)
      · simp only [List.length_cons]; exact Nat.succ_le_succ (ih rest)

theorem stripTags_length_le (l : List Char) : (stripTags l).length ≤ l.length :=
  stripTagsAux_length_le l.length l

theorem joinWords_cons_le (w : List Char) (ws : List (List Char)) :
    (joinWords (w :: ws)).length ≤ w.length + (1 + (joinWords ws).length) := by
  match ws with
  | [] => simp only [joinWords]; omega
  | v :: vs =>
    simp only [joinWords, List.length_append, List.length_cons]
    omega

theorem joinWords_pySplitAux_le : ∀ (l acc : List Char),
    (joinWords (pySplitAux l acc)).length ≤ l.length + acc.length := by
  intro l
  induction l with
  | nil =>
    intro acc
    simp only [pySplitAux]
    split
    · simp [joinWords]
    · simp [joinWords]
  | cons c rest ih =>
    intro acc
    simp only [pySplitAux]
    split
    · split
      · rename_i hacc
        subst hacc
        have := ih []
        simp only [List.length_cons, List.length_nil] at *
        omega
      · have h1 := joinWords_cons_le acc.reverse (pySplitAux rest [])
        have h2 := ih []
        simp only [List.length_cons, List.length_reverse, List.length_nil] at *
        omega
    · have := ih (c :: acc)
      simp only [List.length_cons] at *
      omega

theorem pyStrip_length_le (l : List Char) : (pyStrip l).length ≤ l.length := by
  unfold pyStrip
  rw [List.length_reverse]
  calc ((l.dropWhile isPySpace).reverse.dropWhile isPySpace).length
      ≤ (l.dropWhile isPySpace).reverse.length :=
        (List.dropWhile_sublist _).length_le
    _ = (l.dropWhile isPySpace).length := List.length_reverse _
    _ ≤ l.length := (List.dropWhile_sublist _).length_le

theorem clean_text_length_le (t : List Char) : (clean_text t).length ≤ t.length := by
  unfold clean_text
  calc (pyStrip (joinWords (pySplit (unescape (stripTags t))))).length
      ≤ (joinWords (pySplit (unescape (stripTags t)))).length := pyStrip_length_le _
    _ ≤ (unescape (stripTags t)).length + ([] : List Char).length :=
        joinWords_pySplitAux_le _ []
    _ ≤ (stripTags t).length := by
        have := unescape_length_le (stripTags t); simp at *; omega
    _ ≤ t.length := stripTags_length_le t

/-! ### Lemmas about findall and the URL shapes -/

theorem mem_findallAux {α : Type} {m : List Char → Option (α × List Char)} {a : α} :
    ∀ (fuel : Nat) (l : List Char), a ∈ findallAux m fuel l →
    ∃ l2 r, m l2 = some (a, r) := by
  intro fuel
  induction fuel with
  | zero => intro l h; simp [findallAux] at h
  | succ fuel ih =>
    intro l h
    simp only [findallAux] at h
    revert h
    cases hm : m l with
    | some p =>
      obtain ⟨cap, rest⟩ := p
      intro h
      rcases List.mem_cons.mp h with h1 | h1
      · exact ⟨l, rest, h1 ▸ hm⟩
      · exact ih rest h1
    | none =>
      cases l with
      | nil => intro h; simp at h
      | cons c t => intro h; exact ih t h

theorem mem_findall {α : Type} {m : List Char → Option (α × List Char)} {a : α}
    {l : List Char} (h : a ∈ findall m l) : ∃ l2 r, m l2 = some (a, r) :=
  mem_findallAux l.length l h


theorem mem_takeWhile_not_bad {s : List Char}
    {c : Char} (h : c ∈ s.takeWhile (fun c => !(c = '"' || c = '&'))) :
    c ≠ '"' ∧ c ≠ '&' := by
  have := List.mem_takeWhile_imp h
  simp only [Bool.not_eq_true', Bool.or_eq_false_iff, decide_eq_false_iff_not] at this
  exact this

theorem some_pair_inj {α β : Type} {a c : α} {b d : β}
    (h : (some (a, b) : Option (α × β)) = some (c, d)) : a = c ∧ b = d := by
  rw [Option.some.injEq, Prod.mk.injEq] at h
  exact h

theorem urlTail_shape {s g2 r : List Char} (h : urlTail s = some (g2, r)) :
    urlShape g2 := by
  unfold urlTail at h
  dsimp only at h
  split at h
  · exact absurd h (by simp)
  · rename_i sch heqsch
    split at h
    · exact absurd h (by simp)
    · rename_i hne
      obtain ⟨h1, _⟩ := some_pair_inj h
      have hsch : sch = "https://".data ∨ sch = "http://".data := by
        split at heqsch
        · exact Or.inl (Option.some.injEq .. ▸ heqsch).symm
        · split at heqsch
          · exact Or.inr (Option.some.injEq .. ▸ heqsch).symm
          · exact absurd heqsch (by simp)
      subst h1
      refine ⟨?_, ?_, ?_⟩
      · rcases hsch with h | h <;> rw [h]
        · exact Or.inr (List.prefix_append _ _)
        · exact Or.inl (List.prefix_append _ _)
      · intro hmem
        rcases List.mem_append.mp hmem with hm | hm
        · rcases hsch with h | h <;> rw [h] at hm <;> exact absurd hm (by decide)
        · exact (mem_takeWhile_not_bad hm).1 rfl
      · intro hmem
        rcases List.mem_append.mp hmem with hm | hm
        · rcases hsch with h | h <;> rw [h] at hm <;> exact absurd hm (by decide)
        · exact (mem_takeWhile_not_bad hm).2 rfl

theorem urlGroups_shape {a g1 g2 r : List Char}
    (h : urlGroups a = some ((g1, g2), r)) : urlShape g2 := by
  unfold urlGroups at h
  split at h
  · rename_i p heq
    split at heq
    · revert heq
      cases ht : urlTail (a.drop 7) with
      | some q =>
        obtain ⟨u, urest⟩ := q
        intro heq
        have hpeq : p = ((g1, g2), r) := by injection h
        subst hpeq
        obtain ⟨hg, _⟩ := some_pair_inj heq
        obtain ⟨_, hg2⟩ := Prod.mk.injEq .. ▸ hg
        exact hg2 ▸ urlTail_shape ht
      | none => intro heq; exact absurd heq (by simp)
    · exact absurd heq (by simp)
  · split at h
    · rename_i p heq
      split at heq
      · revert heq
        cases ht : urlTail (a.drop 10) with
        | some q =>
          obtain ⟨u, urest⟩ := q
          intro heq
          have hpeq : p = ((g1, g2), r) := by injection h
          subst hpeq
          obtain ⟨hg, _⟩ := some_pair_inj heq
          obtain ⟨_, hg2⟩ := Prod.mk.injEq .. ▸ hg
          exact hg2 ▸ urlTail_shape ht
        | none => intro heq; exact absurd heq (by simp)
      · exact absurd heq (by simp)
    · revert h
      cases ht : urlTail a with
      | some q =>
        obtain ⟨u, urest⟩ := q
        intro h
        obtain ⟨hg, _⟩ := some_pair_inj h
        obtain ⟨_, hg2⟩ := Prod.mk.injEq .. ▸ hg
        exact hg2 ▸ urlTail_shape ht
      | none => intro h; exact absurd h (by simp)

theorem tryCandsUrl_shape : ∀ (cands : List (List Char)) {g1 g2 r : List Char},
    tryCandsUrl cands = some ((g1, g2), r) → urlShape g2 := by
  intro cands
  induction cands with
  | nil => intro g1 g2 r h; simp [tryCandsUrl] at h
  | cons a rest ih =>
    intro g1 g2 r h
    simp only [tryCandsUrl] at h
    revert h
    cases hg : urlGroups a with
    | some p =>
      intro h
      obtain ⟨⟨u1, u2⟩, ur⟩ := p
      obtain ⟨hg1, _⟩ := some_pair_inj h
      obtain ⟨_, hg2⟩ := Prod.mk.injEq .. ▸ hg1
      exact hg2 ▸ urlGroups_shape hg
    | none => intro h; exact ih h

theorem urlMatch_shape {l : List Char} {g1 g2 r : List Char}
    (h : urlMatch l = some ((g1, g2), r)) : urlShape g2 := by
  unfold urlMatch at h
  split at h
  · exact tryCandsUrl_shape _ h
  · exact absurd h (by simp)

theorem mem_url_matchesOf_shape {html : List Char} {g : List Char × List Char}
    (h : g ∈ url_matchesOf html) : urlShape g.2 := by
  obtain ⟨l2, r, hm⟩ := mem_findall h
  obtain ⟨g1, g2⟩ := g
  exact urlMatch_shape hm

theorem mem_cleanUrlsLoop : ∀ (ms : List (List Char × List Char)) {u : List Char},
    u ∈ cleanUrlsLoop ms →
    ∃ g1 g2, (g1, g2) ∈ ms ∧ blockedUrl g2 = false ∧ u = unescape g2 := by
  intro ms
  induction ms with
  | nil => intro u h; simp [cleanUrlsLoop] at h
  | cons p rest ih =>
    intro u h
    obtain ⟨g1, g2⟩ := p
    simp only [cleanUrlsLoop, ite_self] at h
    split at h
    · obtain ⟨v1, v2, hv⟩ := ih h
      exact ⟨v1, v2, List.mem_cons_of_mem _ hv.1, hv.2⟩
    · rename_i hb
      rcases List.mem_cons.mp h with h1 | h1
      · exact ⟨g1, g2, List.mem_cons_self _ _, Bool.eq_false_iff.mpr hb, h1⟩
      · obtain ⟨v1, v2, hv⟩ := ih h1
        exact ⟨v1, v2, List.mem_cons_of_mem _ hv.1, hv.2⟩

theorem mem_clean_urlsOf {html u : List Char} (h : u ∈ clean_urlsOf html) :
    urlShape u ∧ blockedUrl u = false ∧ unescape u = u := by
  obtain ⟨g1, g2, hmem, hblock, hu⟩ := mem_cleanUrlsLoop _ h
  have hshape : urlShape g2 := mem_url_matchesOf_shape hmem
  have hid : unescape g2 = g2 := unescape_no_amp _ hshape.2.2
  subst hu
  rw [hid]
  exact ⟨hshape, hblock, hid⟩

/-! ### Lemmas about the snippet filter, the primary pass and the fallback -/

theorem mem_cleanSnippetsLoop : ∀ (pool : List (List Char)) (c : List Char),
    c ∈ cleanSnippetsLoop pool ↔
      ∃ s ∈ pool, clean_text s = c ∧ 50 < c.length ∧ c.length < 500 ∧
        stoplisted c = false := by
  intro pool
  induction pool with
  | nil => intro c; simp [cleanSnippetsLoop]
  | cons s rest ih =>
    intro c
    simp only [cleanSnippetsLoop]
    constructor
    · intro h
      split at h
      · rename_i hlen
        split at h
        · obtain ⟨v, hv, rest2⟩ := (ih c).mp h
          exact ⟨v, List.mem_cons_of_mem _ hv, rest2⟩
        · rename_i hstop
          rcases List.mem_cons.mp h with h1 | h1
          · subst h1
            exact ⟨s, List.mem_cons_self _ _, rfl, hlen.1, hlen.2,
              Bool.eq_false_iff.mpr hstop⟩
          · obtain ⟨v, hv, rest2⟩ := (ih c).mp h1
            exact ⟨v, List.mem_cons_of_mem _ hv, rest2⟩
      · obtain ⟨v, hv, rest2⟩ := (ih c).mp h
        exact ⟨v, List.mem_cons_of_mem _ hv, rest2⟩
    · rintro ⟨v, hv, hclean, hlo, hhi, hstop⟩
      rcases List.mem_cons.mp hv with h1 | h1
      · subst h1
        rw [hclean, if_pos ⟨hlo, hhi⟩, if_neg (by simp [hstop])]
        exact List.mem_cons_self _ _
      · have hmem := (ih c).mpr ⟨v, h1, hclean, hlo, hhi, hstop⟩
        split
        · split
          · exact hmem
          · exact List.mem_cons_of_mem _ hmem
        · exact hmem

theorem mem_primaryPass {titles urls snippets : List (List Char)} {count : Nat}
    {r : SearchResult} (h : r ∈ primaryPass titles urls snippets count) :
    ∃ i t, titles.get? i = some t ∧ t ≠ [] ∧ 5 < t.length ∧
      r = { title := t, url := orDefault (urls.get? i) urlPlaceholder,
            description := orDefault (snippets.get? i) descPlaceholder } := by
  unfold primaryPass at h
  obtain ⟨i, _, hf⟩ := List.mem_filterMap.mp h
  revert hf
  cases ht : titles.get? i with
  | none => intro hf; simp at hf
  | some t =>
    intro hf
    simp only at hf
    split at hf
    · rename_i hcond
      exact ⟨i, t, ht, hcond.1, hcond.2, (Option.some.injEq .. ▸ hf).symm⟩
    · simp at hf


theorem fallbackLoop_eq_append (count : Nat) :
    ∀ (blocks : List (List Char)) (results : List SearchResult),
    fallbackLoop count blocks results =
      results ++ fallbackNew count blocks results.length := by
  intro blocks
  induction blocks with
  | nil => intro results; simp [fallbackLoop, fallbackNew]
  | cons b rest ih =>
    intro results
    simp only [fallbackLoop, fallbackNew]
    split
    · simp
    · split
      · rw [ih (results ++ [fallbackRecord (clean_text b)])]
        simp [List.length_append]
      · exact ih results

theorem fallbackNew_of_le {count curLen : Nat} (h : count ≤ curLen) :
    ∀ blocks, fallbackNew count blocks curLen = [] := by
  intro blocks
  cases blocks with
  | nil => rfl
  | cons b rest => simp only [fallbackNew, if_pos h]

theorem mem_fallbackNew {count : Nat} :
    ∀ {blocks : List (List Char)} {curLen : Nat} {r : SearchResult},
    r ∈ fallbackNew count blocks curLen →
    ∃ b ∈ blocks, clean_text b ≠ [] ∧ 50 < (clean_text b).length ∧
      r = fallbackRecord (clean_text b) := by
  intro blocks
  induction blocks with
  | nil => intro curLen r h; simp [fallbackNew] at h
  | cons b rest ih =>
    intro curLen r h
    simp only [fallbackNew] at h
    split at h
    · simp at h
    · split at h
      · rename_i hq
        rcases List.mem_cons.mp h with h1 | h1
        · exact ⟨b, List.mem_cons_self _ _, hq.1, hq.2, h1⟩
        · obtain ⟨v, hv, rest2⟩ := ih h1
          exact ⟨v, List.mem_cons_of_mem _ hv, rest2⟩
      · obtain ⟨v, hv, rest2⟩ := ih h
        exact ⟨v, List.mem_cons_of_mem _ hv, rest2⟩

theorem primaryOf_nil (count : Nat) : primaryOf [] count = [] := by
  have h : clean_titlesOf [] = [] := rfl
  unfold primaryOf
  rw [h]
  unfold primaryPass
  simp

/-- The output of the engine is the primary records followed by the newly
appended fallback records, truncated to the requested count. -/
theorem get_multiple_results_eq (html : List Char) (count : Nat) :
    get_multiple_results html count =
      (primaryOf html count ++
        fallbackNew count ((text_blocksOf html).take count)
          (primaryOf html count).length).take count := by
  unfold get_multiple_results
  split
  · rename_i hnil
    subst hnil
    rw [primaryOf_nil]
    simp [fallbackNew, show text_blocksOf [] = [] from rfl]
  · dsimp only
    split
    · rw [fallbackLoop_eq_append]
    · rename_i hge
      rw [fallbackNew_of_le (Nat.le_of_not_lt hge)]
      simp

theorem mem_get_multiple_results {html : List Char} {count : Nat} {r : SearchResult}
    (h : r ∈ get_multiple_results html count) :
    r ∈ primaryOf html count ∨
      ∃ b ∈ text_blocksOf html, clean_text b ≠ [] ∧
        50 < (clean_text b).length ∧ r = fallbackRecord (clean_text b) := by
  rw [get_multiple_results_eq] at h
  have h2 := List.take_subset _ _ h
  rcases List.mem_append.mp h2 with h3 | h3
  · exact Or.inl h3
  · obtain ⟨b, hb, hrest⟩ := mem_fallbackNew h3
    exact Or.inr ⟨b, List.take_subset _ _ hb, hrest⟩

theorem blockMatch_bounds : ∀ {l cap rest : List Char},
    blockMatch l = some (cap, rest) → 80 ≤ cap.length ∧ cap.length ≤ 400 := by
  intro l cap rest h
  unfold blockMatch at h
  split at h
  · rename_i rest2
    dsimp only at h
    split at h
    · rename_i hcond
      obtain ⟨h1, _⟩ := some_pair_inj h
      exact h1 ▸ ⟨hcond.1, hcond.2.1⟩
    · exact absurd h (by simp)
  · exact absurd h (by simp)

theorem mem_text_blocksOf_bounds {html b : List Char} (h : b ∈ text_blocksOf html) :
    80 ≤ b.length ∧ b.length ≤ 400 := by
  obtain ⟨l2, r, hm⟩ := mem_findall h
  exact blockMatch_bounds hm

theorem orDefault_cases (x : Option (List Char)) (dflt : List Char) :
    orDefault x dflt = dflt ∨ ∃ s, x = some s ∧ s ≠ [] ∧ orDefault x dflt = s := by
  cases x with
  | none => exact Or.inl rfl
  | some s =>
    by_cases h : s = []
    · exact Or.inl (by simp [orDefault, h])
    · exact Or.inr ⟨s, rfl, h, by simp [orDefault, h]⟩

theorem not_blocked_spec {u : List Char} (hb : blockedUrl u = false) :
    ¬ ("google.com".data <:+: u) ∧ ¬ ("gstatic.com".data <:+: u) ∧
      ¬ ("youtube.com/redirect".data <:+: u) := by
  simp only [blockedUrl, Bool.or_eq_false_iff] at hb
  refine ⟨?_, ?_, ?_⟩ <;> intro hinf <;> rw [← containsLit_iff] at hinf
  · rw [hb.1.1] at hinf; exact Bool.false_ne_true hinf
  · rw [hb.1.2] at hinf; exact Bool.false_ne_true hinf
  · rw [hb.2] at hinf; exact Bool.false_ne_true hinf

/-! ### Claim C1 -/

/-- C1: for every page text and count, no url field of a returned record
contains "google.com", "gstatic.com" or "youtube.com/redirect" as a
substring: blocklisted captures are dropped before assembly, and neither
the placeholder nor the entity decoding of kept URLs reintroduces a
blocklisted substring. -/
theorem C1_no_blocklisted_url (html : List Char) (count : Nat) (r : SearchResult)
    (hr : r ∈ get_multiple_results html count) :
    ¬ ("google.com".data <:+: r.url) ∧ ¬ ("gstatic.com".data <:+: r.url) ∧
      ¬ ("youtube.com/redirect".data <:+: r.url) := by
  have hplace : ¬ ("google.com".data <:+: urlPlaceholder) ∧
      ¬ ("gstatic.com".data <:+: urlPlaceholder) ∧
      ¬ ("youtube.com/redirect".data <:+: urlPlaceholder) := by decide
  rcases mem_get_multiple_results hr with h | ⟨b, _, _, _, hrec⟩
  · obtain ⟨i, t, _, _, _, hrec⟩ := mem_primaryPass h
    subst hrec
    dsimp only
    rcases orDefault_cases ((clean_urlsOf html).get? i) urlPlaceholder with
      hcase | ⟨u, hu, _, hcase⟩
    · rw [hcase]; exact hplace
    · rw [hcase]
      exact not_blocked_spec (mem_clean_urlsOf (List.get?_mem hu)).2.1
  · subst hrec
    exact hplace


theorem C1_witness :
    ¬ ("google.com".data <:+: ("https://example.net/a".data : List Char)) ∧
    ¬ ("gstatic.com".data <:+: ("https://example.net/a".data : List Char)) ∧
    ¬ ("youtube.com/redirect".data <:+: ("https://example.net/a".data : List Char)) :=
  C1_no_blocklisted_url pageC1 1
    { title := "Result One".data, url := "https://example.net/a".data,
      description := descPlaceholder } (by decide)

/-! ### Claim C2 -/

/-- C2 counterexample: a candidate whose normalized length is exactly 50
and which is stoplist-free is nevertheless dropped by the snippet filter,
refuting the claimed "kept iff normalized length in [50, 500)". -/
theorem C2_counterexample :
    (clean_text (List.replicate 50 'a')).length = 50 ∧
    stoplisted (clean_text (List.replicate 50 'a')) = false ∧
    cleanSnippetsLoop [List.replicate 50 'a'] = [] := by decide

/-- C2 amended: a pooled candidate survives the snippet filter if and
only if its normalized length is strictly between 50 and 500 (a
normalized length of exactly 50 is dropped) and it contains none of the
stoplist substrings in its lowercased form. -/
theorem C2_amended_kept_iff (pool : List (List Char)) (c : List Char) :
    c ∈ cleanSnippetsLoop pool ↔
      ∃ s ∈ pool, clean_text s = c ∧ 50 < c.length ∧ c.length < 500 ∧
        stoplisted c = false :=
  mem_cleanSnippetsLoop pool c

/-! ### Claim C3 -/

theorem filterMap_if {α β : Type} (p : α → Bool) (g : α → β) :
    ∀ l : List α,
    l.filterMap (fun i => if p i then some (g i) else none) =
      (l.filter p).map g := by
  intro l
  induction l with
  | nil => rfl
  | cons a t ih =>
    by_cases h : p a
    · simp only [List.filterMap_cons, List.filter_cons, h, if_pos, List.map_cons,
        ih, if_true]
    · simp only [List.filterMap_cons, List.filter_cons, h, List.map_cons, ih,
        if_false, Bool.false_eq_true, if_neg]

theorem filter_range_min (p : Nat → Bool) (n m : Nat)
    (hp : ∀ i, m ≤ i → p i = false) :
    (List.range n).filter p = (List.range (min n m)).filter p := by
  rcases Nat.le_total n m with h | h
  · rw [Nat.min_eq_left h]
  · rw [Nat.min_eq_right h]
    have hn : n = m + (n - m) := (Nat.add_sub_cancel' h).symm
    rw [hn, List.range_add, List.filter_append, List.filter_map]
    have hnil : (List.range (n - m)).filter (p ∘ (fun x => m + x)) = [] :=
      List.filter_eq_nil_iff.mpr
        (fun a _ => by simp [hp (m + a) (Nat.le_add_right m a)])
    rw [hnil]
    simp

/-- C3: in the primary pass a record is emitted for index i below count
exactly when the title at index i has length above 5 (gaps from failing
titles are not backfilled, records keep index order), and a missing url
or snippet at index i is replaced by its fixed placeholder. -/
theorem C3_primary_emission (titles urls snippets : List (List Char)) (count : Nat) :
    primaryPass titles urls snippets count =
      ((List.range count).filter
          (fun i => decide (5 < ((titles.get? i).getD []).length))).map
        (fun i =>
          { title := (titles.get? i).getD [],
            url := orDefault (urls.get? i) urlPlaceholder,
            description := orDefault (snippets.get? i) descPlaceholder }) := by
  unfold primaryPass
  rw [List.filterMap_congr (g := fun i =>
    if decide (5 < ((titles.get? i).getD []).length) = true then
      some { title := (titles.get? i).getD [],
             url := orDefault (urls.get? i) urlPlaceholder,
             description := orDefault (snippets.get? i) descPlaceholder }
    else none) ?_]
  · rw [show (fun i =>
        if decide (5 < ((titles.get? i).getD []).length) = true then
          some { title := (titles.get? i).getD [],
                 url := orDefault (urls.get? i) urlPlaceholder,
                 description := orDefault (snippets.get? i) descPlaceholder }
        else none) = (fun i =>
        if (fun j => decide (5 < ((titles.get? j).getD []).length)) i then
          some ((fun j =>
            ({ title := (titles.get? j).getD [],
               url := orDefault (urls.get? j) urlPlaceholder,
               description := orDefault (snippets.get? j) descPlaceholder } :
              SearchResult)) i)
        else none) from rfl]
    rw [filterMap_if]
    rw [filter_range_min _ count titles.length
      (fun i hi => by simp [List.getElem?_eq_none hi])]
  · intro i _
    cases ht : titles.get? i with
    | none =>
      have ht2 : titles[i]? = none := by rw [← List.get?_eq_getElem?]; exact ht
      simp [ht2]
    | some t =>
      have ht2 : titles[i]? = some t := by rw [← List.get?_eq_getElem?]; exact ht
      by_cases h5 : 5 < t.length
      · have hne : t ≠ [] := by
          intro h0
          rw [h0] at h5
          exact absurd h5 (by simp)
        simp [hne, h5, ht2]
      · have hno : ¬ (t ≠ [] ∧ 5 < t.length) := fun hc => h5 hc.2
        simp [hno, h5, ht2]

/-- C4: for every count and page text, the returned list has length at
most count, and equals the primary-pass records followed by the appended
fallback records, truncated to count (primary records before fallback
records). -/
theorem C4_bounded_and_ordered (html : List Char) (count : Nat) :
    (get_multiple_results html count).length ≤ count ∧
    get_multiple_results html count =
      (primaryOf html count ++
        fallbackNew count ((text_blocksOf html).take count)
          (primaryOf html count).length).take count :=
  ⟨by rw [get_multiple_results_eq]; exact List.length_take_le _ _,
   get_multiple_results_eq html count⟩

/-! ### Claim C5 -/

/-- C5: every record returned by the engine, from the primary pass or the
fallback pass, has a title longer than 5 characters. -/
theorem C5_title_length (html : List Char) (count : Nat) (r : SearchResult)
    (hr : r ∈ get_multiple_results html count) : 5 < r.title.length := by
  rcases mem_get_multiple_results hr with h | ⟨b, _, _, hlen, hrec⟩
  · obtain ⟨i, t, _, _, hlen, hrec⟩ := mem_primaryPass h
    subst hrec
    exact hlen
  · subst hrec
    show 5 < ((clean_text b).take 100 ++ "...".data).length
    rw [List.length_append, List.length_take,
      show ("...".data : List Char).length = 3 from rfl]
    omega


theorem C5_witness : 5 < ("Alpha Beta".data : List Char).length :=
  C5_title_length pageC5 1
    { title := "Alpha Beta".data, url := urlPlaceholder,
      description := descPlaceholder } (by decide)

/-! ### Claim C6 -/

/-- C6: every returned record whose description is not the placeholder
has a description of length in the interval from 50 inclusive to 500
exclusive, in the primary pass as well as in the fallback pass. -/
theorem C6_description_length (html : List Char) (count : Nat) (r : SearchResult)
    (hr : r ∈ get_multiple_results html count)
    (hnp : r.description ≠ descPlaceholder) :
    50 ≤ r.description.length ∧ r.description.length < 500 := by
  rcases mem_get_multiple_results hr with h | ⟨b, hb, _, hlen, hrec⟩
  · obtain ⟨i, t, _, _, _, hrec⟩ := mem_primaryPass h
    subst hrec
    dsimp only at hnp ⊢
    rcases orDefault_cases ((clean_snippetsOf html count).get? i) descPlaceholder with
      hcase | ⟨s, hs, _, hcase⟩
    · rw [hcase] at hnp; exact absurd rfl hnp
    · rw [hcase]
      obtain ⟨v, _, _, hlo, hhi, _⟩ :=
        (mem_cleanSnippetsLoop (snippetsOf html count) s).mp (List.get?_mem hs)
      exact ⟨Nat.le_of_lt hlo, hhi⟩
  · subst hrec
    show 50 ≤ (clean_text b).length ∧ (clean_text b).length < 500
    have hub : b.length ≤ 400 := (mem_text_blocksOf_bounds hb).2
    have hcl : (clean_text b).length ≤ b.length := clean_text_length_le b
    omega


theorem C6_witness :
    50 ≤ (List.replicate 60 'd').length ∧ (List.replicate 60 'd').length < 500 :=
  C6_description_length pageC6 1
    { title := "Title123".data, url := urlPlaceholder,
      description := List.replicate 60 'd' } (by decide) (by decide)

/-! ### Claim C7 -/


/-- C7 counterexample: this page has zero heading-style title matches and
two delimiter-bounded blocks of length 80 (within 80..400), yet
extraction with count 2 returns no record at all, because both blocks
normalize to text of length at most 50. -/
theorem C7_counterexample :
    titlesOf pageC7bad = [] ∧
    text_blocksOf pageC7bad = [List.replicate 80 ' ', List.replicate 80 ' '] ∧
    (List.replicate 80 ' ' : List Char).length = 80 ∧
    get_multiple_results pageC7bad 2 = [] := by decide

/-- C7 amended: on a page with zero heading-style title matches whose
block scan yields at least two blocks, and whose first two blocks each
normalize to text longer than 50 characters, extraction with count 2
returns exactly the two fallback records built from those blocks: title
the first 100 normalized characters plus an ellipsis marker, description
the full normalized block, url the placeholder. -/
theorem C7_amended (html b1 b2 : List Char) (rest : List (List Char))
    (ht : titlesOf html = [])
    (hb : text_blocksOf html = b1 :: b2 :: rest)
    (h1 : 50 < (clean_text b1).length) (h2 : 50 < (clean_text b2).length) :
    get_multiple_results html 2 =
      [fallbackRecord (clean_text b1), fallbackRecord (clean_text b2)] := by
  have hne : html ≠ [] := by
    intro h0
    rw [h0, show text_blocksOf [] = [] from rfl] at hb
    exact List.noConfusion hb
  have hprim : primaryOf html 2 = [] := by
    unfold primaryOf clean_titlesOf
    rw [ht]
    unfold primaryPass
    simp
  have hne1 : clean_text b1 ≠ [] := by
    intro h0; rw [h0] at h1; exact absurd h1 (by simp)
  have hne2 : clean_text b2 ≠ [] := by
    intro h0; rw [h0] at h2; exact absurd h2 (by simp)
  unfold get_multiple_results
  rw [if_neg hne]
  dsimp only
  rw [hprim, hb]
  rw [if_pos (by simp : ([] : List SearchResult).length < 2)]
  rw [show List.take 2 (b1 :: b2 :: rest) = [b1, b2] by
    simp [List.take_succ_cons, List.take_zero]]
  rw [show fallbackLoop 2 [b1, b2] [] =
      fallbackLoop 2 [b2] [fallbackRecord (clean_text b1)] by
    simp only [fallbackLoop]
    rw [if_neg (by simp), if_pos ⟨hne1, h1⟩]
    simp]
  rw [show fallbackLoop 2 [b2] [fallbackRecord (clean_text b1)] =
      [fallbackRecord (clean_text b1), fallbackRecord (clean_text b2)] by
    simp only [fallbackLoop]
    rw [if_neg (by simp), if_pos ⟨hne2, h2⟩]
    simp]
  simp


theorem C7_amended_witness :
    titlesOf pageC7good = [] ∧
    text_blocksOf pageC7good = [List.replicate 80 'a', List.replicate 80 'b'] ∧
    50 < (clean_text (List.replicate 80 'a')).length ∧
    50 < (clean_text (List.replicate 80 'b')).length ∧
    get_multiple_results pageC7good 2 =
      [fallbackRecord (clean_text (List.replicate 80 'a')),
       fallbackRecord (clean_text (List.replicate 80 'b'))] :=
  ⟨by decide, by decide, by decide, by decide,
   C7_amended pageC7good (List.replicate 80 'a') (List.replicate 80 'b') []
     (by decide) (by decide) (by decide) (by decide)⟩

/-! ### Claim C8 -/


/-- C8 counterexample: with count 1 on this page the early-stopping
engine returns a placeholder description while the variant that runs all
four snippet patterns returns the real snippet, so the two variants are
not observationally equal. -/
theorem C8_counterexample :
    get_multiple_results pageC8 1 ≠ get_multiple_resultsAll pageC8 1 := by decide

/-- C8 amended: the early pool stop is observable in general; the
early-stopping engine and the run-all-patterns variant agree whenever the
stop never triggers, that is, when the pool stays below 2 x count after
each of the first three patterns. -/
theorem C8_amended_no_stop_agree (html : List Char) (count : Nat)
    (h1 : (snippetFindallA html).length < count * 2)
    (h2 : (snippetFindallA html).length + (snippetFindallB html).length < count * 2)
    (h3 : (snippetFindallA html).length + (snippetFindallB html).length +
      (snippetFindallC html).length < count * 2) :
    get_multiple_results html count = get_multiple_resultsAll html count := by
  have hpool : snippetsOf html count = snippetsAllOf html := by
    unfold snippetsOf snippetsAllOf snippetPatterns
    simp only [poolLoop, List.foldl]
    rw [if_neg (by simp only [List.nil_append]; omega)]
    rw [if_neg (by simp only [List.nil_append, List.length_append]; omega)]
    rw [if_neg (by simp only [List.nil_append, List.length_append]; omega)]
    rw [ite_self]
  unfold get_multiple_results get_multiple_resultsAll primaryOf primaryAllOf
    clean_snippetsOf
  rw [hpool]

theorem C8_amended_witness :
    (snippetFindallA "x".data).length < 1 * 2 ∧
    (snippetFindallA "x".data).length + (snippetFindallB "x".data).length < 1 * 2 ∧
    (snippetFindallA "x".data).length + (snippetFindallB "x".data).length +
      (snippetFindallC "x".data).length < 1 * 2 ∧
    get_multiple_results "x".data 1 = get_multiple_resultsAll "x".data 1 :=
  ⟨by decide, by decide, by decide,
   C8_amended_no_stop_agree "x".data 1 (by decide) (by decide) (by decide)⟩

/-! ### Claim C10 -/

/-- C10: every url field other than the placeholder begins with http:// or
https:// and contains neither a double quote nor an ampersand, so the
entity decoding applied to captured URLs never changes them. -/
theorem C10_url_shape (html : List Char) (count : Nat) (r : SearchResult)
    (hr : r ∈ get_multiple_results html count) (hnp : r.url ≠ urlPlaceholder) :
    ("http://".data <+: r.url ∨ "https://".data <+: r.url) ∧
      '"' ∉ r.url ∧ '&' ∉ r.url ∧ unescape r.url = r.url := by
  rcases mem_get_multiple_results hr with h | ⟨b, _, _, _, hrec⟩
  · obtain ⟨i, t, _, _, _, hrec⟩ := mem_primaryPass h
    subst hrec
    dsimp only at hnp ⊢
    rcases orDefault_cases ((clean_urlsOf html).get? i) urlPlaceholder with
      hcase | ⟨u, hu, _, hcase⟩
    · rw [hcase] at hnp; exact absurd rfl hnp
    · rw [hcase]
      obtain ⟨hsh, _, hid⟩ := mem_clean_urlsOf (List.get?_mem hu)
      exact ⟨hsh.1, hsh.2.1, hsh.2.2, hid⟩
  · subst hrec
    exact absurd rfl hnp


theorem C10_witness :
    ("http://".data <+: ("http://sample.org/x".data : List Char) ∨
      "https://".data <+: ("http://sample.org/x".data : List Char)) ∧
    '"' ∉ ("http://sample.org/x".data : List Char) ∧
    '&' ∉ ("http://sample.org/x".data : List Char) ∧
    unescape "http://sample.org/x".data = "http://sample.org/x".data :=
  C10_url_shape pageC10 1
    { title := "Result Two".data, url := "http://sample.org/x".data,
      description := descPlaceholder } (by decide) (by decide)

/-! ### Claim C9 -/


/-- C9 counterexample: the dispatcher fails on one query, and the
remaining queries of that domain are not issued (its customer query never
appears in the trace) and its partial results are discarded, refuting the
claim that each remaining query is still issued and gathered; only the
other domain's queries run. -/
theorem C9_counterexample :
    (research_competitors failingDispatcher ["a.com", "b.com"]).1 =
      ["a.com vs competitors", "b.com vs competitors", "b.com customers case study",
       "b.com funding OR acquisition OR partnership",
       "b.com product launch OR new feature"] ∧
    "a.com customers case study" ∉
      (research_competitors failingDispatcher ["a.com", "b.com"]).1 := by decide

/-- C9 amended: failure isolation holds per domain, not per query: for
every dispatcher, the orchestrator issues each domain's queries and keeps
each domain's report independently of the failures of the other domains;
within one domain a transport failure aborts that domain's remaining
queries and discards its report. -/
theorem C9_amended_per_domain_isolation
    (d : String → Except String (List SearchResult)) (domains : List String) :
    research_competitors d domains =
      (domains.flatMap (fun dom => (research_company d dom).1),
       domains.filterMap (fun dom => ((research_company d dom).2).toOption)) := by
  induction domains with
  | nil => rfl
  | cons dom rest ih =>
    simp only [research_competitors, List.flatMap_cons, List.filterMap_cons]
    cases hc : (research_company d dom).2 with
    | ok intel => simp [ih, hc, Except.toOption]
    | error e => simp [ih, hc, Except.toOption]
